import Mathlib

/-!
Verification development for the Gible version-control engine
(object storage, text/binary delta codecs, commit graph, reconstruction,
commit builder, three-way merge).  The Python sources live in
`src/src/base.py` (repository core) and `src/cli/main.py` (the CLI
variant); definitions below are shallow embeddings of those functions,
with external collaborators (sha256, zlib, bsdiff4, difflib, json)
modelled as stated in the corresponding doc strings.
-/

set_option maxRecDepth 4000

namespace Gible

/-- Byte buffers (Python `bytes`): each element is a byte value 0..255. -/
abbrev Bytes := List Nat

/-- Decoded text (Python `str`): a list of Unicode code points. -/
abbrev Uni := List Nat

/-- Object ids and other identifiers are strings (hex digests in Python). -/
abbrev Oid := String

/-- Working-directory-relative paths, as their component lists. -/
abbrev Path := List String

/-- Python slice `l[i:j]` for 0 ≤ i ≤ j (clamping at the length like Python). -/
def pySlice (l : List α) (i j : Nat) : List α :=
  (l.drop i).take (j - i)

/-- Association-list lookup (Python `dict.get`). -/
def lookupA [DecidableEq κ] (l : List (κ × β)) (k : κ) : Option β :=
  match l with
  | [] => none
  | (k', v) :: rest => if k' = k then some v else lookupA rest k

/-- Association-list insert-or-replace (Python `dict` assignment / overwriting
a file at a fixed filesystem path). -/
def insertReplace [DecidableEq κ] (l : List (κ × β)) (k : κ) (v : β) : List (κ × β) :=
  match l with
  | [] => [(k, v)]
  | (k', v') :: rest =>
    if k' = k then (k, v) :: rest else (k', v') :: insertReplace rest k v

/-- Keys of an association list. -/
def keysA (l : List (κ × β)) : List κ := l.map Prod.fst

/-!
UTF-8.  Models Python's strict `bytes.decode("utf-8")` /
`str.encode("utf-8")`: 1–4 byte sequences, continuation bytes `0x80..0xBF`,
overlong encodings, surrogates (U+D800..U+DFFF) and code points above
U+10FFFF rejected.
-/

/-- Whether a byte is a UTF-8 continuation byte. -/
def isCont (b : Nat) : Bool := 0x80 ≤ b && b < 0xC0

/-- Decodes the first UTF-8 scalar of a buffer, returning the code point
and the remaining bytes; `none` on empty or invalid input. -/
def utf8DecodeOne : Bytes → Option (Nat × Bytes)
  | [] => none
  | b :: rest =>
    if b < 0x80 then some (b, rest)
    else if b < 0xC2 then none
    else if b < 0xE0 then
      match rest with
      | c1 :: rest2 =>
        if isCont c1 then some ((b - 0xC0) * 64 + (c1 - 0x80), rest2) else none
      | [] => none
    else if b < 0xF0 then
      match rest with
      | c1 :: c2 :: rest2 =>
        let cp := (b - 0xE0) * 4096 + (c1 - 0x80) * 64 + (c2 - 0x80)
        if isCont c1 && isCont c2 && decide (0x800 ≤ cp) &&
            !(decide (0xD800 ≤ cp) && decide (cp < 0xE000)) then
          some (cp, rest2)
        else none
      | _ => none
    else if b < 0xF5 then
      match rest with
      | c1 :: c2 :: c3 :: rest2 =>
        let cp := (b - 0xF0) * 0x40000 + (c1 - 0x80) * 4096 + (c2 - 0x80) * 64 + (c3 - 0x80)
        if isCont c1 && isCont c2 && isCont c3 && decide (0x10000 ≤ cp) &&
            decide (cp < 0x110000) then
          some (cp, rest2)
        else none
      | _ => none
    else none

/-- Fueled scalar-at-a-time decoding loop; each step consumes at least one
byte, so fuel equal to the buffer length always suffices. -/
def utf8DecodeF : Nat → Bytes → Option Uni
  | 0, [] => some []
  | 0, _ :: _ => none
  | _ + 1, [] => some []
  | fuel + 1, b :: rest =>
    match utf8DecodeOne (b :: rest) with
    | none => none
    | some (cp, rest2) => (utf8DecodeF fuel rest2).map (cp :: ·)

/-- Strict UTF-8 decoding of a byte buffer to code points; `none` models the
`UnicodeDecodeError` Python raises on invalid input. -/
def utf8Decode (bs : Bytes) : Option Uni := utf8DecodeF bs.length bs

/-- UTF-8 encoding of a single code point. -/
def utf8EncodeChar (c : Nat) : Bytes :=
  if c < 0x80 then [c]
  else if c < 0x800 then [0xC0 + c / 64, 0x80 + c % 64]
  else if c < 0x10000 then [0xE0 + c / 4096, 0x80 + c / 64 % 64, 0x80 + c % 64]
  else [0xF0 + c / 0x40000, 0x80 + c / 4096 % 64, 0x80 + c / 64 % 64, 0x80 + c % 64]

/-- UTF-8 encoding of decoded text (Python `str.encode("utf-8")`). -/
def utf8Encode (u : Uni) : Bytes := u.flatMap utf8EncodeChar

/-- Embeds `is_text_content` (base.py lines 38-43): a buffer is text iff it
decodes as UTF-8. -/
def is_text_content (data : Bytes) : Bool := (utf8Decode data).isSome

/-- Converts a Lean string literal to its code-point list, for writing
concrete text in examples and in embedded string constants. -/
def uni (s : String) : Uni := s.data.map Char.toNat

/-!
Python `str.splitlines(keepends=True)`: split on the Unicode line
boundaries recognised by Python (`\n`, `\r`, `\r\n`, `\x0b`, `\x0c`,
`\x1c`, `\x1d`, `\x1e`, `\x85`, ` `, ` `), terminators retained.
-/

/-- Whether a code point is one of Python's `str.splitlines` boundaries. -/
def isLineBreak (c : Nat) : Bool :=
  c = 10 || c = 13 || c = 0x0B || c = 0x0C || c = 0x1C || c = 0x1D ||
  c = 0x1E || c = 0x85 || c = 0x2028 || c = 0x2029

/-- Splits off the first line (terminator retained) and the remainder;
`\r\n` counts as a single terminator. -/
def breakLine : Uni → Uni × Uni
  | [] => ([], [])
  | c :: rest =>
    if c = 13 then
      match rest with
      | [] => ([13], [])
      | c2 :: rest2 => if c2 = 10 then ([13, 10], rest2) else ([13], c2 :: rest2)
    else if isLineBreak c then ([c], rest)
    else
      let p := breakLine rest
      (c :: p.1, p.2)

/-- Fueled worker for `splitlines`; fuel bounds the number of produced lines,
and `u.length + 1` always suffices since every line is nonempty. -/
def splitlinesF : Nat → Uni → List Uni
  | 0, _ => []
  | _ + 1, [] => []
  | fuel + 1, c :: rest =>
    (breakLine (c :: rest)).1 :: splitlinesF fuel (breakLine (c :: rest)).2

/-- Embeds Python `str.splitlines(keepends=True)` on code-point text. -/
def splitlines (u : Uni) : List Uni := splitlinesF (u.length + 1) u

/-- Concatenation of lines (Python `"".join(lines)`). -/
def joinLines (ls : List Uni) : Uni := ls.flatten

/-!
Serialization.  base.py stores text-diff payloads as JSON bytes
(`json.dumps` on the patch list, `json.loads` to read it back) and
binary-diff payloads as `bsdiff4` patch bytes.  Both are injective byte
serializations with total inverses on well-formed input; we model them with
an explicit length-free prefix code over bytes, with the decoder as the
exact inverse.
-/

/-- Prefix-codes a natural number (unary run of 1s closed by a 0). -/
def encNat (n : Nat) : Bytes := List.replicate n 1 ++ [0]

/-- Decodes a prefix-coded natural, returning the remainder of the buffer. -/
def decNat : Bytes → Option (Nat × Bytes)
  | 0 :: rest => some (0, rest)
  | 1 :: rest => (decNat rest).map (fun p => (p.1 + 1, p.2))
  | _ => none

/-- Prefix-codes a list given an element coder: length header then elements. -/
def encListWith (encA : α → Bytes) (l : List α) : Bytes :=
  encNat l.length ++ (l.map encA).flatten

/-- Decodes `n` consecutive elements with the given element decoder. -/
def decCount (decA : Bytes → Option (α × Bytes)) : Nat → Bytes → Option (List α × Bytes)
  | 0, bs => some ([], bs)
  | n + 1, bs =>
    match decA bs with
    | none => none
    | some (a, bs') =>
      match decCount decA n bs' with
      | none => none
      | some (l, bs'') => some (a :: l, bs'')

/-- Decodes a length-headed list. -/
def decListWith (decA : Bytes → Option (α × Bytes)) (bs : Bytes) :
    Option (List α × Bytes) :=
  match decNat bs with
  | none => none
  | some (n, bs') => decCount decA n bs'

/-- Codes one text line (a code-point list). -/
def encLine (l : Uni) : Bytes := encListWith encNat l

/-- Decodes one text line. -/
def decLine (bs : Bytes) : Option (Uni × Bytes) := decListWith decNat bs

/-!
SequenceMatcher.  generate_text_diff and three_way_merge_text call
`difflib.SequenceMatcher(None, a, b).get_opcodes()` from the Python
standard library.  Modelled from the spec ("compute a minimal edit script
(longest-common-subsequence-based opcode sequence: equal/replace/delete/
insert ranges)") and difflib's documented contract: repeatedly find the
longest matching block in the current window (ties resolved to the
earliest start in `a`, then in `b`), recurse on both sides, merge blocks
adjacent in both sequences, close with a zero-size sentinel block, and
convert the block list to opcodes.  The junk/autojunk popularity heuristic
is not modelled (the repository always passes `isjunk=None`).
-/

/-- A matching block `a[i:i+size] == b[j:j+size]`. -/
structure MBlock where
  i : Nat
  j : Nat
  size : Nat
deriving DecidableEq

/-- Length of the longest common prefix of two lists. -/
def matchLen [DecidableEq α] : List α → List α → Nat
  | [], _ => 0
  | _ :: _, [] => 0
  | a :: as, b :: bs => if a = b then matchLen as bs + 1 else 0

/-- Length of the match of `a[i:]` against `b[j:]` clamped to the window
`[alo,ahi) × [blo,bhi)` (here only the upper ends matter). -/
def windowMLen [DecidableEq α] (a b : List α) (ahi bhi i j : Nat) : Nat :=
  min (matchLen (a.drop i) (b.drop j)) (min (ahi - i) (bhi - j))

/-- Candidate start pairs for the longest-match search, in the scan order
difflib's tie-breaking contract prescribes (ascending `i`, then `j`). -/
def flmCands (alo ahi blo bhi : Nat) : List (Nat × Nat) :=
  (List.range' alo (ahi - alo)).flatMap
    (fun i => (List.range' blo (bhi - blo)).map (fun j => (i, j)))

/-- Models `SequenceMatcher.find_longest_match` on the window
`a[alo:ahi] × b[blo:bhi]`: the longest matching block, breaking ties in
favour of the earliest start in `a`, then the earliest in `b`. -/
def findLongestMatch [DecidableEq α] (a b : List α) (alo ahi blo bhi : Nat) : MBlock :=
  (flmCands alo ahi blo bhi).foldl
    (fun best ij =>
      let k := windowMLen a b ahi bhi ij.1 ij.2
      if best.size < k then ⟨ij.1, ij.2, k⟩ else best)
    ⟨alo, blo, 0⟩

/-- Models the `get_matching_blocks` divide-and-conquer: find the longest
match, recurse left and right.  The in-order recursion produces exactly the
sorted block list difflib obtains from its queue-plus-sort formulation.
The fuel argument only serves termination; every recursion level strictly
shrinks the `a` window, so `ahi - alo + 1` fuel always suffices. -/
def matchingBlocksRec [DecidableEq α] (a b : List α) :
    Nat → Nat → Nat → Nat → Nat → List MBlock
  | 0, _, _, _, _ => []
  | fuel + 1, alo, ahi, blo, bhi =>
    let m := findLongestMatch a b alo ahi blo bhi
    if m.size = 0 then []
    else
      (if alo < m.i ∧ blo < m.j then matchingBlocksRec a b fuel alo m.i blo m.j else [])
      ++ m ::
      (if m.i + m.size < ahi ∧ m.j + m.size < bhi then
        matchingBlocksRec a b fuel (m.i + m.size) ahi (m.j + m.size) bhi else [])

/-- Merges blocks adjacent in both sequences (difflib's `non_adjacent`
post-pass), starting from the dummy accumulator block `(0,0,0)`. -/
def mergeAdjacent : MBlock → List MBlock → List MBlock
  | cur, [] => if cur.size ≠ 0 then [cur] else []
  | cur, m :: rest =>
    if cur.i + cur.size = m.i ∧ cur.j + cur.size = m.j then
      mergeAdjacent ⟨cur.i, cur.j, cur.size + m.size⟩ rest
    else
      (if cur.size ≠ 0 then [cur] else []) ++ mergeAdjacent m rest

/-- Models `SequenceMatcher.get_matching_blocks`: recursive block
collection, adjacency merge, and the final `(len(a), len(b), 0)` sentinel. -/
def getMatchingBlocks [DecidableEq α] (a b : List α) : List MBlock :=
  mergeAdjacent ⟨0, 0, 0⟩
    (matchingBlocksRec a b (a.length + 1) 0 a.length 0 b.length)
  ++ [⟨a.length, b.length, 0⟩]

/-- Opcode tags, as in difflib (`equal`/`replace`/`delete`/`insert`). -/
inductive Tag where
  | equal
  | replace
  | delete
  | insert
deriving DecidableEq

/-- One opcode `(tag, i1, i2, j1, j2)`. -/
structure Opcode where
  tag : Tag
  i1 : Nat
  i2 : Nat
  j1 : Nat
  j2 : Nat
deriving DecidableEq

/-- Models the opcode-conversion loop of `get_opcodes`: walk the matching
blocks, emitting a replace/delete/insert opcode for the gap before each
block and an equal opcode for the block itself. -/
def opcodesLoop : Nat → Nat → List MBlock → List Opcode
  | _, _, [] => []
  | i, j, m :: rest =>
    (if i < m.i ∧ j < m.j then [⟨.replace, i, m.i, j, m.j⟩]
      else if i < m.i then [⟨.delete, i, m.i, j, m.j⟩]
      else if j < m.j then [⟨.insert, i, m.i, j, m.j⟩]
      else [])
    ++ (if m.size ≠ 0 then [⟨.equal, m.i, m.i + m.size, m.j, m.j + m.size⟩] else [])
    ++ opcodesLoop (m.i + m.size) (m.j + m.size) rest

/-- Models `SequenceMatcher(None, a, b).get_opcodes()`. -/
def get_opcodes [DecidableEq α] (a b : List α) : List Opcode :=
  opcodesLoop 0 0 (getMatchingBlocks a b)

/-!
Text diff codec (base.py lines 69-98, identical in cli/main.py).
`generate_text_diff` splits both buffers into lines, takes the opcodes,
and serializes `[tag, i1, i2, j1, j2, payload]` entries where only
`replace`/`insert` carry the new-line payload; `apply_text_diff` replays
them against the base line sequence.
-/

/-- One serialized patch entry `[tag, i1, i2, j1, j2, payload-or-null]`. -/
structure PatchEntry where
  op : Opcode
  payload : Option (List Uni)
deriving DecidableEq

/-- Builds the patch entry list for an opcode list against the new line
sequence (the loop of `generate_text_diff`: `replace`/`insert` carry
`new_lines[j1:j2]`, other tags carry `None`). -/
def mkPatchEntries (newLines : List Uni) (ops : List Opcode) : List PatchEntry :=
  ops.map (fun op =>
    if op.tag = .replace ∨ op.tag = .insert then
      ⟨op, some (pySlice newLines op.j1 op.j2)⟩
    else ⟨op, none⟩)

/-- The structured patch `generate_text_diff` computes for two line lists. -/
def generateTextPatch (oldLines newLines : List Uni) : List PatchEntry :=
  mkPatchEntries newLines (get_opcodes oldLines newLines)

/-- Serializes one opcode tag. -/
def encTag : Tag → Nat
  | .equal => 0
  | .replace => 1
  | .delete => 2
  | .insert => 3

/-- Decodes one opcode tag. -/
def decTag : Nat → Option Tag
  | 0 => some .equal
  | 1 => some .replace
  | 2 => some .delete
  | 3 => some .insert
  | _ => none

/-- Serializes one patch entry. -/
def encEntry (e : PatchEntry) : Bytes :=
  encNat (encTag e.op.tag) ++ encNat e.op.i1 ++ encNat e.op.i2 ++
  encNat e.op.j1 ++ encNat e.op.j2 ++
  (match e.payload with
   | none => encNat 0
   | some ls => encNat 1 ++ encListWith encLine ls)

/-- Decodes one patch entry. -/
def decEntry (bs : Bytes) : Option (PatchEntry × Bytes) :=
  match decNat bs with
  | none => none
  | some (t, bs1) =>
    match decTag t with
    | none => none
    | some tag =>
      match decNat bs1 with
      | none => none
      | some (i1, bs2) =>
        match decNat bs2 with
        | none => none
        | some (i2, bs3) =>
          match decNat bs3 with
          | none => none
          | some (j1, bs4) =>
            match decNat bs4 with
            | none => none
            | some (j2, bs5) =>
              match decNat bs5 with
              | none => none
              | some (0, bs6) => some (⟨⟨tag, i1, i2, j1, j2⟩, none⟩, bs6)
              | some (1, bs6) =>
                match decListWith decLine bs6 with
                | none => none
                | some (ls, bs7) => some (⟨⟨tag, i1, i2, j1, j2⟩, some ls⟩, bs7)
              | some (_, _) => none

/-- Serializes a whole patch (models `json.dumps(patch).encode()`). -/
def encodePatch (p : List PatchEntry) : Bytes := encListWith encEntry p

/-- Deserializes a whole patch (models `json.loads(diff_bytes.decode())`);
the buffer is consumed exactly. -/
def decodePatch (bs : Bytes) : Option (List PatchEntry) :=
  match decListWith decEntry bs with
  | some (p, []) => some p
  | _ => none

/-- Embeds `generate_text_diff` (base.py lines 69-80): decode both buffers,
split into lines, diff, serialize.  `none` models the
`UnicodeDecodeError` raised on non-UTF-8 input. -/
def generate_text_diff (oldBytes newBytes : Bytes) : Option Bytes :=
  match utf8Decode oldBytes, utf8Decode newBytes with
  | some ot, some nt => some (encodePatch (generateTextPatch (splitlines ot) (splitlines nt)))
  | _, _ => none

/-- Replay of one patch entry against the base line sequence (the body of
the `apply_text_diff` loop): `equal` copies `base_lines[i1:i2]`, `replace`
and `insert` copy the carried payload, `delete` contributes nothing.
`none` models the `TypeError` on a missing payload. -/
def entryOut (baseLines : List Uni) (e : PatchEntry) : Option (List Uni) :=
  match e.op.tag with
  | .equal => some (pySlice baseLines e.op.i1 e.op.i2)
  | .delete => some []
  | .replace => e.payload
  | .insert => e.payload

/-- Replays a structured patch against a base line sequence, concatenating
the per-entry contributions in order (the `result_lines` accumulation). -/
def applyTextPatch (baseLines : List Uni) : List PatchEntry → Option (List Uni)
  | [] => some []
  | e :: rest =>
    match entryOut baseLines e, applyTextPatch baseLines rest with
    | some v, some vs => some (v ++ vs)
    | _, _ => none

/-- Embeds `apply_text_diff` (base.py lines 82-98): decode the base, parse
the patch, replay it, and re-encode the joined result. -/
def apply_text_diff (baseBytes diffBytes : Bytes) : Option Bytes :=
  match utf8Decode baseBytes with
  | none => none
  | some bt =>
    match decodePatch diffBytes with
    | none => none
    | some patch =>
      match applyTextPatch (splitlines bt) patch with
      | none => none
      | some lines => some (utf8Encode (joinLines lines))

/-!
Binary diff codec.  base.py delegates to the external `bsdiff4` library
(`generate_binary_diff` / `apply_binary_diff`, lines 103-107).  Modelled
from the spec: "a byte-level delta (suffix-array or block-matching
algorithm, e.g. bsdiff-style) producing a compact patch; apply reverses it
exactly."  The model is a greedy block-matching delta: the patch is a
sequence of copy-from-old and insert-literal operations, serialized with
the prefix code above.
-/

/-- One binary-delta operation. -/
inductive BinOp where
  | copy (pos len : Nat)
  | ins (b : Nat)
deriving DecidableEq

/-- Finds the start position maximising the match of `old[i:]` against
`rem`, with the earliest position among maxima (a block-matching search). -/
def bestBinMatch (old rem : Bytes) : Nat × Nat :=
  (List.range old.length).foldl
    (fun best i =>
      let k := matchLen (old.drop i) rem
      if best.2 < k then (i, k) else best)
    (0, 0)

/-- Fueled generator loop: repeatedly emit the best copy, falling back to a
literal byte; `rem.length + 1` fuel always suffices. -/
def genBinOps (old : Bytes) : Nat → Bytes → List BinOp
  | 0, _ => []
  | _ + 1, [] => []
  | fuel + 1, b :: rest =>
    let m := bestBinMatch old (b :: rest)
    if m.2 = 0 then .ins b :: genBinOps old fuel rest
    else .copy m.1 m.2 :: genBinOps old fuel ((b :: rest).drop m.2)

/-- Replays a binary-delta operation list against the old buffer. -/
def applyBinOps (old : Bytes) (ops : List BinOp) : Bytes :=
  ops.flatMap (fun op =>
    match op with
    | .copy pos len => (old.drop pos).take len
    | .ins b => [b])

/-- Serializes one binary-delta operation. -/
def encBinOp : BinOp → Bytes
  | .copy pos len => encNat 0 ++ encNat pos ++ encNat len
  | .ins b => encNat 1 ++ encNat b

/-- Decodes one binary-delta operation. -/
def decBinOp (bs : Bytes) : Option (BinOp × Bytes) :=
  match decNat bs with
  | some (0, bs1) =>
    match decNat bs1 with
    | none => none
    | some (pos, bs2) =>
      match decNat bs2 with
      | none => none
      | some (len, bs3) => some (.copy pos len, bs3)
  | some (1, bs1) =>
    match decNat bs1 with
    | none => none
    | some (b, bs2) => some (.ins b, bs2)
  | _ => none

/-- Models `generate_binary_diff` (bsdiff4.diff): computes and serializes
the block-matching delta. -/
def generate_binary_diff (oldBytes newBytes : Bytes) : Bytes :=
  encListWith encBinOp (genBinOps oldBytes (newBytes.length + 1) newBytes)

/-- Models `apply_binary_diff` (bsdiff4.patch): parses and replays the
delta; `none` models the error raised on a malformed patch. -/
def apply_binary_diff (baseBytes diffBytes : Bytes) : Option Bytes :=
  match decListWith decBinOp diffBytes with
  | some (ops, []) => some (applyBinOps baseBytes ops)
  | _ => none

/-!
Object storage (base.py lines 48-64, identical in cli/main.py).
`save_object` hashes the raw data (sha256, an external deterministic
function, kept as a parameter), compresses it (zlib, an external lossless
codec, kept as a parameter pair), and writes it to
`objects/<oid>.<obj_type>`, overwriting any existing file at that path;
`load_object` reads and decompresses, raising `FileNotFoundError`
(modelled as `none`) when the file is absent.  The filesystem directory is
modelled as an association list from file name to file content.
-/

section ObjectStorage

variable (calculate_hash : Bytes → String)
variable (compress_data decompress_data : Bytes → Bytes)

/-- The on-disk objects directory: file name to stored (compressed) bytes. -/
abbrev FileStore := List (String × Bytes)

/-- Embeds `save_object` (base.py lines 51-57). -/
def save_object (store : FileStore) (data : Bytes) (objType : String) :
    FileStore × String :=
  let oid := calculate_hash data
  (insertReplace store (oid ++ "." ++ objType) (compress_data data), oid)

/-- Embeds `load_object` (base.py lines 59-64). -/
def load_object (store : FileStore) (oid objType : String) : Option Bytes :=
  (lookupA store (oid ++ "." ++ objType)).map decompress_data

end ObjectStorage

/-!
Repository data model (base.py).  A commit's per-path file entries are the
list-encoded variants `["base", oid]`, `["diff", oid]`, `["deleted", None]`;
the `parent` field of a commit object is `None`, a single oid string, or a
two-element list for merge commits.  `_get_full_commit` reads the commit
object file and falls back to the `metadata.json` commits index, both of
which are written together with identical content by
`_write_commit_object`; the model keeps that single shared copy in the
metadata commits index.  Object contents are kept raw here: zlib
compression is a byte-level encoding applied inside
`save_object`/`load_object` and is modelled in the object-storage section
above.
-/

/-- A per-path commit file entry. -/
inductive Entry where
  | base (oid : Oid)
  | diff (oid : Oid)
  | deleted
deriving DecidableEq

/-- The `parent` field of a stored commit: `None`, a string, or a list
(merge commits; `parent[0]` is the first parent). -/
inductive ParentRef where
  | pnone
  | pstr (oid : Oid)
  | plist (fst : Option Oid) (rest : List (Option Oid))
deriving DecidableEq

/-- A commit object (`author` and `timestamp` are environment-derived
strings no claim touches; they are elided). -/
structure CommitObj where
  parent : ParentRef
  files : List (Path × Entry)
  message : String
deriving DecidableEq

/-- The `metadata.json` content. -/
structure Metadata where
  head : Option Oid
  current_branch : String
  branches : List (String × Option Oid)
  commits : List (Oid × CommitObj)
deriving DecidableEq

/-- One staging-index record (`{"hash": ..., "mode": ...}`; the synthetic
records the commit builder makes for missing files carry no hash). -/
structure IndexInfo where
  hash : Option String
  mode : String
deriving DecidableEq

/-- Full repository state: metadata, the objects directory keyed by
`(oid, kind)` with raw content, the staging index, and the working
directory (path to file bytes). -/
structure RepoState where
  meta : Metadata
  objects : List ((Oid × String) × Bytes)
  indexData : List (Path × IndexInfo)
  workdir : List (Path × Bytes)
deriving DecidableEq

/-- Errors reconstruction can raise: `fnf` models Python's
`FileNotFoundError` (missing commit, missing object file, or path never
tracked — all the same exception class), `codec` models the errors raised
while parsing or applying a diff payload. -/
inductive RErr where
  | fnf
  | codec
deriving DecidableEq

/-- Repo-level object load: raw bytes at key `(oid, kind)`. -/
def loadObj (st : RepoState) (oid : Oid) (objType : String) : Option Bytes :=
  lookupA st.objects (oid, objType)

/-- Repo-level object save: write raw bytes at `(hash data, kind)` and
return the oid (the repo-level view of `save_object`). -/
def saveObjR (hashB : Bytes → Oid) (objects : List ((Oid × String) × Bytes))
    (data : Bytes) (objType : String) : List ((Oid × String) × Bytes) × Oid :=
  let oid := hashB data
  (insertReplace objects (oid, objType) data, oid)

/-- Embeds `_get_full_commit` (base.py lines 233-252): resolve a commit id
through the object store / metadata index, `FileNotFoundError` if absent. -/
def getFullCommit (st : RepoState) (oid : Oid) : Except RErr CommitObj :=
  match lookupA st.meta.commits oid with
  | some c => .ok c
  | none => .error .fnf

/-- First-parent selection (base.py lines 274-276: a list parent collapses
to `parent[0]`). -/
def firstParent : ParentRef → Option Oid
  | .pnone => none
  | .pstr s => some s
  | .plist f _ => f

/-- Embeds `get_commit_tree` (base.py lines 787-794). -/
def getCommitTree (st : RepoState) (oid? : Option Oid) : List (Path × Entry) :=
  match oid? with
  | none => []
  | some oid =>
    match getFullCommit st oid with
    | .ok c => c.files
    | .error _ => []

/-- The `while current_oid:` walk of `reconstruct_file_bytes` (base.py
lines 266-277), collecting the entries recorded for `filepath`
newest-first along first-parent links.  The fuel argument is the
shallow-embedding device for the unguarded Python loop: `none` means the
walk did not finish within the given number of steps. -/
def collectChainF (st : RepoState) (filepath : Path) :
    Nat → Option Oid → Option (Except RErr (List Entry))
  | _, none => some (.ok [])
  | 0, some _ => none
  | fuel + 1, some oid =>
    match getFullCommit st oid with
    | .error e => some (.error e)
    | .ok c =>
      let entries := match lookupA c.files filepath with
        | some e => [e]
        | none => []
      (collectChainF st filepath fuel (firstParent c.parent)).map
        (fun r => r.map (entries ++ ·))

/-- The sequence of commit ids the reconstruction walk visits (for stating
the acyclicity precondition of the walk). -/
def chainOids (st : RepoState) : Nat → Option Oid → List Oid
  | _, none => []
  | 0, some _ => []
  | fuel + 1, some oid =>
    match getFullCommit st oid with
    | .error _ => []
    | .ok c => oid :: chainOids st fuel (firstParent c.parent)

/-- One forward application step of the reconstruction chain (base.py line
296): pick the text or the binary codec by the current buffer's derived
classification. -/
def applyChainStep (result diffBytes : Bytes) : Option Bytes :=
  if is_text_content result then apply_text_diff result diffBytes
  else apply_binary_diff result diffBytes

/-- The `for obj_type, oid in chain[1:]` replay loop of
`reconstruct_file_bytes` (base.py lines 288-299): a `deleted` entry
returns `None` immediately, a `base` entry reloads, a `diff` entry applies
the matching codec. -/
def replayChain (st : RepoState) : Bytes → List Entry → Except RErr (Option Bytes)
  | result, [] => .ok (some result)
  | _, .deleted :: _ => .ok none
  | _, .base oid :: rest =>
    match loadObj st oid "base" with
    | none => .error .fnf
    | some r => replayChain st r rest
  | result, .diff oid :: rest =>
    match loadObj st oid "diff" with
    | none => .error .fnf
    | some d =>
      match applyChainStep result d with
      | none => .error .codec
      | some r => replayChain st r rest

/-- Embeds `reconstruct_file_bytes` (base.py lines 257-299): collect the
chain newest-first, reverse it, handle an initial `deleted`, load the
initial object (with kind `"base"` for a base entry and the entry's own
kind otherwise, mirroring line 287), then replay forward.  The outer
`Option` is walk fuel; inside, `.ok none` is "file deleted", `.ok (some
bytes)` the reconstructed content, and `.error` a raised exception. -/
def reconstruct_file_bytes (st : RepoState) (fuel : Nat) (commitOid : Oid)
    (filepath : Path) : Option (Except RErr (Option Bytes)) :=
  (collectChainF st filepath fuel (some commitOid)).map (fun r =>
    r.bind (fun chainNF =>
      match chainNF.reverse with
      | [] => .error .fnf
      | e0 :: rest =>
        match e0 with
        | .deleted => .ok none
        | .base oid =>
          match loadObj st oid "base" with
          | none => .error .fnf
          | some r0 => replayChain st r0 rest
        | .diff oid =>
          match loadObj st oid "diff" with
          | none => .error .fnf
          | some r0 => replayChain st r0 rest))

/-!
Commit builder (base.py lines 332-431).  The per-path store decisions are
split out so the store-or-base claims can name them; `commit` itself then
mirrors the Python control flow, including the placement of the
commit-object write inside the per-file loop.
-/

/-- The outcome of one text-file store decision (base.py lines 395-403):
inherit the parent entry when the generated patch deserializes to the
empty list (`if not json.loads(diff_bytes)`), otherwise store the diff
bytes as a new diff object. -/
inductive TextAction where
  | inherit
  | storeDiff (d : Bytes)
deriving DecidableEq

/-- Embeds the text branch decision of `commit`; `none` models the
`UnicodeDecodeError` `generate_text_diff` raises on undecodable input. -/
def textStoreDecision (lastBytes currentBytes : Bytes) : Option TextAction :=
  (generate_text_diff lastBytes currentBytes).map (fun diffBytes =>
    if decodePatch diffBytes = some [] then .inherit else .storeDiff diffBytes)

/-- The outcome of one binary-file store decision. -/
inductive BinAction where
  | storeDiff (d : Bytes)
  | storeBase (c : Bytes)
deriving DecidableEq

/-- Embeds the binary branch decision of `commit` (base.py lines 405-413):
store the patch as a diff object iff it is strictly smaller than the new
content, else store the content as a full base object. -/
def binaryStoreDecision (binDiff newContent : Bytes) : BinAction :=
  if binDiff.length < newContent.length then .storeDiff binDiff
  else .storeBase newContent

/-- The `parent` field `commit` writes (`head`, a string or `None`). -/
def headParent : Option Oid → ParentRef
  | none => .pnone
  | some h => .pstr h

section RepoOps

variable (hashB : Bytes → Oid)
variable (hashC : CommitObj → Oid)

/-- Embeds `_write_commit_object` (base.py lines 216-231): record the
commit under its id (the hash of its serialized form, kept as the
parameter `hashC`), point the current branch and `head` at it. -/
def writeCommitObject (st : RepoState) (c : CommitObj) : RepoState × Oid :=
  let oid := hashC c
  let md := st.meta
  ({ st with meta :=
      { md with
        commits := insertReplace md.commits oid c
        branches := insertReplace md.branches md.current_branch (some oid)
        head := some oid } }, oid)

/-- Results of a `commit` call: a written commit, the explicit
nothing-to-commit refusal, the bare `None` Python returns when the
per-file loop finishes without reaching the commit-write block, or a
propagated exception. -/
inductive CommitRes where
  | committed (oid : Oid)
  | refusedNothing
  | noneReturn
  | raisedErr
deriving DecidableEq

/-- The commit-write block at the bottom of the per-file loop (base.py
lines 415-431): build the commit object, write it, clear the staging
index, return success. -/
def commitFinish (message : String) (head : Option Oid) (st : RepoState)
    (filesMap : List (Path × Entry)) : Option (CommitRes × RepoState) :=
  let w := writeCommitObject hashC st ⟨headParent head, filesMap, message⟩
  some (.committed w.2, { w.1 with indexData := [] })

/-- The `for filepath, info in combined_files.items():` loop of `commit`
(base.py lines 356-431).  Deleted paths and paths whose prior content
reconstructs to nothing `continue`; every other path falls through to the
commit-write block at the bottom of the loop body and returns from inside
the loop.  An empty remainder means Python fell off the loop and the
function returned `None`. -/
def commitLoop (fuel : Nat) (message : String) (head : Option Oid) :
    RepoState → List (Path × IndexInfo) → List (Path × Entry) →
    Option (CommitRes × RepoState)
  | st, [], _ => some (.noneReturn, st)
  | st, (fp, info) :: rest, acc =>
    match lookupA st.workdir fp with
    | none => commitLoop fuel message head st rest (insertReplace acc fp .deleted)
    | some currentBytes =>
      let isText := info.mode = "text"
      let prevEntry : Option Entry :=
        match head with
        | none => none
        | some h =>
          match getFullCommit st h with
          | .ok c => lookupA c.files fp
          | .error _ => none
      match prevEntry with
      | none =>
        let so := saveObjR hashB st.objects currentBytes "base"
        commitFinish hashC message head { st with objects := so.1 }
          (insertReplace acc fp (.base so.2))
      | some pe =>
        match head with
        | none => some (.raisedErr, st)
        | some h =>
          match reconstruct_file_bytes st fuel h fp with
          | none => none
          | some (.error .codec) => some (.raisedErr, st)
          | some (.error .fnf) =>
            let so := saveObjR hashB st.objects currentBytes "base"
            commitLoop fuel message head { st with objects := so.1 } rest
              (insertReplace acc fp (.base so.2))
          | some (.ok none) =>
            let so := saveObjR hashB st.objects currentBytes "base"
            commitLoop fuel message head { st with objects := so.1 } rest
              (insertReplace acc fp (.base so.2))
          | some (.ok (some lastBytes)) =>
            if isText then
              match textStoreDecision lastBytes currentBytes with
              | none => some (.raisedErr, st)
              | some .inherit =>
                commitFinish hashC message head st (insertReplace acc fp pe)
              | some (.storeDiff diffBytes) =>
                let so := saveObjR hashB st.objects diffBytes "diff"
                commitFinish hashC message head { st with objects := so.1 }
                  (insertReplace acc fp (.diff so.2))
            else
              match binaryStoreDecision (generate_binary_diff lastBytes currentBytes)
                  currentBytes with
              | .storeDiff d =>
                let so := saveObjR hashB st.objects d "diff"
                commitFinish hashC message head { st with objects := so.1 }
                  (insertReplace acc fp (.diff so.2))
              | .storeBase c =>
                let so := saveObjR hashB st.objects c "base"
                commitFinish hashC message head { st with objects := so.1 }
                  (insertReplace acc fp (.base so.2))

/-- Embeds `commit` (base.py lines 332-431): combine the staged paths with
the previously tracked paths now missing on disk, refuse when that union
is empty, otherwise run the per-file loop. -/
def commit (fuel : Nat) (st : RepoState) (message : String) :
    Option (CommitRes × RepoState) :=
  let head := st.meta.head
  let staged := st.indexData
  let previouslyTracked := match head with
    | none => []
    | some h => keysA (getCommitTree st (some h))
  let missing := previouslyTracked.filter (fun f => (lookupA st.workdir f).isNone)
  let combined := staged ++
    (missing.filter (fun f => (lookupA staged f).isNone)).map
      (fun f => (f, (⟨none, "text"⟩ : IndexInfo)))
  if combined = [] then some (.refusedNothing, st)
  else commitLoop hashB hashC fuel message head st combined []

/-- Outcomes of an `add` call: path not found, the result returned from
inside the staging loop (naming the single path that was staged before the
early return), or the bare `None` returned when the loop body never ran. -/
inductive AddOutcome where
  | notFound
  | staged (p : Path)
  | noneReturn
deriving DecidableEq

/-- Files below a directory in `os.walk` order (working-directory list
order), pruning any subtree whose directory is named `.gible` (base.py
line 314 filters `dirs`). -/
def walkFiles (workdir : List (Path × Bytes)) (dir : Path) : List Path :=
  (keysA workdir).filter (fun f =>
    dir.isPrefixOf f && decide (dir.length < f.length) &&
    !((f.drop dir.length).dropLast.contains ".gible"))

/-- The `for full_path in paths_to_process:` loop of `add` (base.py lines
317-327): stage the file's hash and derived text/binary mode — and return
from inside the loop after the first staged file. -/
def addLoop : RepoState → List Path → RepoState × AddOutcome
  | st, [] => (st, .noneReturn)
  | st, fp :: rest =>
    match lookupA st.workdir fp with
    | none => addLoop st rest
    | some data =>
      let mode := if is_text_content data then "text" else "binary"
      ({ st with indexData := insertReplace st.indexData fp ⟨some (hashB data), mode⟩ },
        .staged fp)

/-- Embeds `add` (base.py lines 304-327): a file path stages itself, a
directory path walks its files (skipping the repository metadata
directory) and feeds them to the staging loop. -/
def add (st : RepoState) (filepath : Path) : RepoState × AddOutcome :=
  if (lookupA st.workdir filepath).isSome then addLoop hashB st [filepath]
  else if walkFiles st.workdir filepath ≠ [] then
    addLoop hashB st (walkFiles st.workdir filepath)
  else (st, .notFound)

end RepoOps

/-!
Three-way text merge (base.py lines 532-587).
-/

/-- The non-equal opcode ranges of one side against the base, as
`(i1, i2, replacement)` over base line indices (the `modified_ours` /
`modified_theirs` lists). -/
def modifiedOps (baseLines sideLines : List Uni) : List (Nat × Nat × List Uni) :=
  (get_opcodes baseLines sideLines).filterMap (fun op =>
    if op.tag = .equal then none
    else some (op.i1, op.i2, pySlice sideLines op.j1 op.j2))

/-- Insertion into a sorted duplicate-free ascending list. -/
def insSorted (n : Nat) : List Nat → List Nat
  | [] => [n]
  | m :: rest =>
    if n < m then n :: m :: rest
    else if n = m then m :: rest
    else m :: insSorted n rest

/-- The sorted cut-point list `sorted({0, len(base)} ∪ all opcode range
ends)` (base.py lines 547-552). -/
def sortedBounds (baseLen : Nat) (mo mt : List (Nat × Nat × List Uni)) : List Nat :=
  (0 :: baseLen ::
      (mo.flatMap (fun s => [s.1, s.2.1]) ++ mt.flatMap (fun s => [s.1, s.2.1]))).foldl
    (fun acc n => insSorted n acc) []

/-- Embeds `find_covering` (base.py lines 554-558): the first recorded
range covering the segment `[a, b]`. -/
def findCovering (segList : List (Nat × Nat × List Uni)) (a b : Nat) :
    Option (List Uni) :=
  (segList.find? (fun s => decide (s.1 ≤ a) && decide (b ≤ s.2.1))).map
    (fun s => s.2.2)

/-- The per-segment loop of `three_way_merge_text` (base.py lines
563-586): copy the base segment when neither side covers it, take the
single covering side, take an identical double-sided replacement, and
otherwise emit a conflict block and set the conflict flag. -/
def segsLoop (baseLines : List Uni) (mo mt : List (Nat × Nat × List Uni)) :
    List (Nat × Nat) → List Uni × Bool
  | [] => ([], false)
  | (a, b) :: rest =>
    let tailRes := segsLoop baseLines mo mt rest
    let baseSeg := pySlice baseLines a b
    match findCovering mo a b, findCovering mt a b with
    | none, none => (baseSeg ++ tailRes.1, tailRes.2)
    | some o, none => (o ++ tailRes.1, tailRes.2)
    | none, some t => (t ++ tailRes.1, tailRes.2)
    | some o, some t =>
      if o = t then (o ++ tailRes.1, tailRes.2)
      else
        (uni "<<<<<<< HEAD\n" :: o ++ uni "=======\n" :: t ++
          [uni ">>>>>>> MERGE_BRANCH\n"] ++ tailRes.1, true)

/-- Embeds `three_way_merge_text` (base.py lines 532-587), returning the
joined merged text and the conflict flag. -/
def three_way_merge_text (baseLines oursLines theirsLines : List Uni) :
    Uni × Bool :=
  let mo := modifiedOps baseLines oursLines
  let mt := modifiedOps baseLines theirsLines
  let bounds := sortedBounds baseLines.length mo mt
  let r := segsLoop baseLines mo mt (bounds.zip bounds.tail)
  (joinLines r.1, r.2)

/-!
CLI variant (cli/main.py): the MERGE_HEAD merge-state machinery and the
per-file merge classification of `merge_branch` (lines 611-712), which is
what persists — or fails to persist — the per-path conflict records.
-/

namespace Cli

/-- The slice of cli repository state the merge-state claims touch:
`MERGE_HEAD` content, `metadata.json` pointers, and the ids of commit
objects written so far. -/
structure CliSt where
  mergeHead : Option Oid
  head : Option Oid
  current_branch : String
  branches : List (String × Option Oid)
  commitsWritten : List Oid
deriving DecidableEq

/-- Outcomes of `switch_branch` (cli/main.py lines 493-516). -/
inductive SwitchRes where
  | noBranch
  | mergeBlocked
  | switched
deriving DecidableEq

/-- Embeds `switch_branch` (cli/main.py lines 493-516): unknown branch and
merge-in-progress both return without touching state; otherwise the
current branch moves (the cli variant updates `current_branch` and checks
out, leaving the `head` field as is). -/
def switch_branch (st : CliSt) (name : String) : CliSt × SwitchRes :=
  match lookupA st.branches name with
  | none => (st, .noBranch)
  | some _ =>
    if st.mergeHead.isSome then (st, .mergeBlocked)
    else ({ st with current_branch := name }, .switched)

/-- Early outcomes of `merge_branch` (cli/main.py lines 560-593) before
any file is examined. -/
inductive MergeEarly where
  | noBranch
  | upToDate
  | mergeBlocked
  | proceeds
deriving DecidableEq

/-- Embeds the guard prefix of `merge_branch`: missing branch, the
up-to-date check, then the merge-in-progress refusal. -/
def mergeEarly (st : CliSt) (otherBranch : String) : MergeEarly :=
  match lookupA st.branches otherBranch with
  | none => .noBranch
  | some otherHead =>
    let currentHead := (lookupA st.branches st.current_branch).getD none
    if currentHead = otherHead then .upToDate
    else if st.mergeHead.isSome then .mergeBlocked
    else .proceeds

/-- Embeds the conflict tail of `merge_branch` (cli/main.py lines
716-725): write `MERGE_HEAD` with the other head and stop — no commit, no
pointer update. -/
def mergeOnConflict (st : CliSt) (otherHead : Oid) : CliSt :=
  { st with mergeHead := some otherHead }

/-- Embeds the merge-finalisation prelude of `commit` (cli/main.py lines
346-371): with `MERGE_HEAD` present and no explicit merge parents, the
commit's parents become `[head, other_head]` and the marker is removed. -/
def commitParents (st : CliSt) (mergeParents : Option (List (Option Oid))) :
    List (Option Oid) × CliSt :=
  match st.mergeHead with
  | some other =>
    (match mergeParents with
     | some ps => ps
     | none => [st.head, some other], { st with mergeHead := none })
  | none =>
    (match mergeParents with
     | some ps => ps
     | none => [st.head], st)

/-- What the per-file merge body does to the working tree for one path. -/
inductive DiskAct where
  | keep
  | removeFile
  | write (bs : Bytes)
deriving DecidableEq

/-- The observable outcome of one iteration of the merge loop: conflict
flag contribution, whether a conflict-record JSON was written for the
path, the working-tree action, and what was staged into the index. -/
structure MergeFileRes where
  conflict : Bool
  recordWritten : Bool
  disk : DiskAct
  stagedMode : Option (Bytes × String)
deriving DecidableEq

/-- The conflict-marker buffer of cli/main.py lines 681-688. -/
def conflictMarkers (currentBranch otherBranch : String) (ours theirs : Bytes) :
    Bytes :=
  utf8Encode
    (uni "<<<<<<< HEAD (Branch: " ++ uni currentBranch ++ uni ")\n" ++
      ((utf8Decode ours).getD []) ++ uni "\n=======\n" ++
      ((utf8Decode theirs).getD []) ++ uni "\n>>>>>>> " ++ uni otherBranch ++ uni "\n")

/-- Embeds the per-file body of the cli `merge_branch` loop (cli/main.py
lines 624-712) on the three reconstructed versions (`none` = absent or
deleted): deletion cases first — a delete-versus-modify conflict sets the
flag and writes no record — then the equal / one-side-changed / both-
changed classification, conflict markers for text, ours for binary, and a
conflict-record write only in the both-changed case. -/
def mergeFile (currentBranch otherBranch : String)
    (baseB oursB theirsB : Option Bytes) : MergeFileRes :=
  match oursB, theirsB with
  | none, none => ⟨false, false, .keep, none⟩
  | none, some t =>
    if baseB = some t then ⟨false, false, .removeFile, none⟩
    else ⟨true, false, .keep, none⟩
  | some o, none =>
    if baseB = some o then ⟨false, false, .removeFile, none⟩
    else ⟨true, false, .keep, none⟩
  | some o, some t =>
    let isText := is_text_content o && is_text_content t
    let modeStr := if isText then "text" else "binary"
    if o = t then ⟨false, false, .write o, some (o, modeStr)⟩
    else if baseB = some o then ⟨false, false, .write t, some (t, modeStr)⟩
    else if baseB = some t then ⟨false, false, .write o, some (o, modeStr)⟩
    else
      if isText then
        let merged := conflictMarkers currentBranch otherBranch o t
        ⟨true, true, .write merged, some (merged, "text")⟩
      else ⟨true, true, .write o, some (o, "binary")⟩

end Cli


/-!
Proof-layer predicates and the concrete repository states used below.
-/

/-- Soundness predicate for `findLongestMatch`: a zero block, or a genuine
in-window matching block. -/
def MOk [DecidableEq α] (a b : List α) (alo ahi blo bhi : Nat) (m : MBlock) : Prop :=
  m.size = 0 ∨
    (alo ≤ m.i ∧ m.i + m.size ≤ ahi ∧ blo ≤ m.j ∧ m.j + m.size ≤ bhi ∧
      (a.drop m.i).take m.size = (b.drop m.j).take m.size)

/-- Matching-block lists that progress monotonically through the window
`[alo, ahi) × [blo, bhi)` with genuinely matching content. -/
def Chained [DecidableEq α] (a b : List α) :
    Nat → Nat → List MBlock → Nat → Nat → Prop
  | alo, blo, [], ahi, bhi => alo ≤ ahi ∧ blo ≤ bhi
  | alo, blo, m :: rest, ahi, bhi =>
    alo ≤ m.i ∧ blo ≤ m.j ∧
    (a.drop m.i).take m.size = (b.drop m.j).take m.size ∧
    Chained a b (m.i + m.size) (m.j + m.size) rest ahi bhi

/-- Matching-block lists (sentinel included) that cover `b` to its end:
exactly what the opcode round trip needs. -/
def GChain [DecidableEq α] (a b : List α) : Nat → Nat → List MBlock → Prop
  | _, j, [] => b.length ≤ j
  | i, j, m :: rest =>
    i ≤ m.i ∧ j ≤ m.j ∧
    (a.drop m.i).take m.size = (b.drop m.j).take m.size ∧
    GChain a b (m.i + m.size) (m.j + m.size) rest

/-- A three-commit history for path `p`: introduced with a `Base` at `c1`,
deleted at `c2`, reintroduced with a fresh `Base` (content `[121]`) at
`c3`. -/
def c2Repo : RepoState :=
  { meta := { head := some "c3", current_branch := "master",
              branches := [("master", some "c3")],
              commits := [("c1", ⟨.pnone, [(["p"], .base "o1")], "m1"⟩),
                          ("c2", ⟨.pstr "c1", [(["p"], .deleted)], "m2"⟩),
                          ("c3", ⟨.pstr "c2", [(["p"], .base "o3")], "m3"⟩)] },
    objects := [(("o1", "base"), [120]), (("o3", "base"), [121])],
    indexData := [], workdir := [(["p"], [121])] }

/-- A repository whose head tracks `a.txt`, with an empty staging index
and `a.txt` removed from the working directory: the deletion-only commit
input. -/
def c8Repo : RepoState :=
  { meta := { head := some "c1", current_branch := "master",
              branches := [("master", some "c1")],
              commits := [("c1", ⟨.pnone, [(["a.txt"], .base "o1")], "c1"⟩)] },
    objects := [(("o1", "base"), [120])],
    indexData := [], workdir := [] }

/-- An empty repository whose working directory holds two files under the
directory `d`. -/
def c9Repo : RepoState :=
  { meta := { head := none, current_branch := "master",
              branches := [("master", none)], commits := [] },
    objects := [], indexData := [],
    workdir := [(["d", "f1"], [97]), (["d", "f2"], [98])] }

/-- A single-commit repository used to witness the termination theorem. -/
def c10Repo : RepoState :=
  { meta := { head := some "c1", current_branch := "master",
              branches := [("master", some "c1")],
              commits := [("c1", ⟨.pnone, [(["p"], .base "o1")], "m1"⟩)] },
    objects := [(("o1", "base"), [120])],
    indexData := [], workdir := [(["p"], [120])] }

/-!
Association-list and serialization lemmas.
-/

theorem lookupA_insertReplace [DecidableEq κ] (l : List (κ × β)) (k : κ) (v : β) :
    lookupA (insertReplace l k v) k = some v := by
  induction l with
  | nil => simp [insertReplace, lookupA]
  | cons kv rest ih =>
    by_cases h : kv.1 = k
    · simp [insertReplace, h, lookupA]
    · simp [insertReplace, h, lookupA, ih]

theorem insertReplace_idem [DecidableEq κ] (l : List (κ × β)) (k : κ) (v : β) :
    insertReplace (insertReplace l k v) k v = insertReplace l k v := by
  induction l with
  | nil => simp [insertReplace]
  | cons kv rest ih =>
    by_cases h : kv.1 = k
    · simp [insertReplace, h]
    · simp [insertReplace, h, ih]

theorem lookupA_mem_keys [DecidableEq κ] {l : List (κ × β)} {k : κ} {v : β}
    (h : lookupA l k = some v) : k ∈ keysA l := by
  induction l with
  | nil => simp [lookupA] at h
  | cons kv rest ih =>
    by_cases hk : kv.1 = k
    · simp [keysA, hk.symm]
    · simp [lookupA, hk] at h
      simp [keysA]
      exact Or.inr (by simpa [keysA] using ih h)

theorem decNat_encNat : ∀ (n : Nat) (rest : Bytes), decNat (encNat n ++ rest) = some (n, rest)
  | 0, rest => by simp [encNat, decNat]
  | n + 1, rest => by
    simp [encNat, List.replicate_succ, decNat] at *
    have := decNat_encNat n rest
    simp [encNat] at this
    simp [this]

theorem decCount_enc {encA : α → Bytes} {decA : Bytes → Option (α × Bytes)}
    (h : ∀ a rest, decA (encA a ++ rest) = some (a, rest)) :
    ∀ (l : List α) (rest : Bytes),
      decCount decA l.length ((l.map encA).flatten ++ rest) = some (l, rest)
  | [], rest => by simp [decCount]
  | a :: l, rest => by
    simp only [List.map_cons, List.flatten_cons, List.length_cons, decCount,
      List.append_assoc, h a]
    simp [decCount_enc h l rest]

theorem decListWith_enc {encA : α → Bytes} {decA : Bytes → Option (α × Bytes)}
    (h : ∀ a rest, decA (encA a ++ rest) = some (a, rest)) (l : List α) (rest : Bytes) :
    decListWith decA (encListWith encA l ++ rest) = some (l, rest) := by
  simp only [encListWith, decListWith, List.append_assoc, decNat_encNat]
  exact decCount_enc h l rest

theorem decLine_encLine (u : Uni) (rest : Bytes) :
    decLine (encLine u ++ rest) = some (u, rest) :=
  decListWith_enc decNat_encNat u rest

theorem decTag_encTag (t : Tag) : decTag (encTag t) = some t := by
  cases t <;> rfl

theorem decEntry_encEntry (e : PatchEntry) (rest : Bytes) :
    decEntry (encEntry e ++ rest) = some (e, rest) := by
  obtain ⟨⟨tag, i1, i2, j1, j2⟩, payload⟩ := e
  cases payload with
  | none =>
    simp only [encEntry, decEntry, List.append_assoc, decNat_encNat]
    cases tag <;> simp [encTag, decTag, decNat_encNat]
  | some ls =>
    simp only [encEntry, decEntry, List.append_assoc, decNat_encNat]
    cases tag <;>
      simp [encTag, decTag, decNat_encNat, decListWith_enc decLine_encLine ls rest]

theorem decodePatch_encodePatch (p : List PatchEntry) :
    decodePatch (encodePatch p) = some p := by
  have h := decListWith_enc decEntry_encEntry p []
  simp only [List.append_nil] at h
  simp [decodePatch, encodePatch, h]

theorem decBinOp_encBinOp (op : BinOp) (rest : Bytes) :
    decBinOp (encBinOp op ++ rest) = some (op, rest) := by
  cases op <;> simp [encBinOp, decBinOp, List.append_assoc, decNat_encNat]

/-!
UTF-8 and splitlines round trips.
-/

theorem utf8DecodeOne_sound :
    ∀ (bs : Bytes) (cp : Nat) (rest2 : Bytes),
      utf8DecodeOne bs = some (cp, rest2) →
      utf8EncodeChar cp ++ rest2 = bs ∧ rest2.length < bs.length := by
  intro bs cp rest2 h
  match bs with
  | [] => simp [utf8DecodeOne] at h
  | b :: rest =>
    simp only [utf8DecodeOne] at h
    by_cases h1 : b < 0x80
    · simp only [if_pos h1, Option.some.injEq, Prod.mk.injEq] at h
      obtain ⟨rfl, rfl⟩ := h
      simp [utf8EncodeChar, h1]
    · simp only [if_neg h1] at h
      by_cases h2 : b < 0xC2
      · simp [if_pos h2] at h
      · simp only [if_neg h2] at h
        by_cases h3 : b < 0xE0
        · simp only [if_pos h3] at h
          match rest with
          | [] => simp at h
          | c1 :: rest3 =>
            by_cases hc : isCont c1
            · simp only [if_pos hc, Option.some.injEq, Prod.mk.injEq] at h
              obtain ⟨rfl, rfl⟩ := h
              have hc' : 0x80 ≤ c1 ∧ c1 < 0xC0 := by
                simpa [isCont, Bool.and_eq_true, decide_eq_true_eq] using hc
              have e1 : ¬((b - 0xC0) * 64 + (c1 - 0x80) < 0x80) := by omega
              have e2 : (b - 0xC0) * 64 + (c1 - 0x80) < 0x800 := by omega
              simp only [utf8EncodeChar, if_neg e1, if_pos e2, List.cons_append,
                List.nil_append, List.cons.injEq, List.length_cons]
              exact ⟨⟨by omega, by omega, trivial⟩, by omega⟩
            · simp [if_neg hc] at h
        · simp only [if_neg h3] at h
          by_cases h4 : b < 0xF0
          · simp only [if_pos h4] at h
            match rest with
            | [] => simp at h
            | [c1] => simp at h
            | c1 :: c2 :: rest3 =>
              simp only [] at h
              by_cases hcond : (isCont c1 && isCont c2 &&
                  decide (0x800 ≤ (b - 0xE0) * 4096 + (c1 - 0x80) * 64 + (c2 - 0x80)) &&
                  !(decide (0xD800 ≤ (b - 0xE0) * 4096 + (c1 - 0x80) * 64 + (c2 - 0x80)) &&
                    decide ((b - 0xE0) * 4096 + (c1 - 0x80) * 64 + (c2 - 0x80) < 0xE000)))
                  = true
              · rw [if_pos hcond] at h
                simp only [Option.some.injEq, Prod.mk.injEq] at h
                obtain ⟨rfl, rfl⟩ := h
                have hfacts : (0x80 ≤ c1 ∧ c1 < 0xC0) ∧ (0x80 ≤ c2 ∧ c2 < 0xC0) ∧
                    0x800 ≤ (b - 0xE0) * 4096 + (c1 - 0x80) * 64 + (c2 - 0x80) := by
                  simp only [isCont, Bool.and_eq_true, decide_eq_true_eq] at hcond
                  tauto
                obtain ⟨⟨hc1a, hc1b⟩, ⟨hc2a, hc2b⟩, hcp⟩ := hfacts
                have e1 : ¬((b - 0xE0) * 4096 + (c1 - 0x80) * 64 + (c2 - 0x80) < 0x80) := by
                  omega
                have e2 : ¬((b - 0xE0) * 4096 + (c1 - 0x80) * 64 + (c2 - 0x80) < 0x800) := by
                  omega
                have e3 : (b - 0xE0) * 4096 + (c1 - 0x80) * 64 + (c2 - 0x80) < 0x10000 := by
                  omega
                simp only [utf8EncodeChar, if_neg e1, if_neg e2, if_pos e3,
                  List.cons_append, List.nil_append, List.cons.injEq, List.length_cons]
                exact ⟨⟨by omega, by omega, by omega, trivial⟩, by omega⟩
              · rw [if_neg (by simpa using hcond)] at h
                exact absurd h (by simp)
          · simp only [if_neg h4] at h
            by_cases h5 : b < 0xF5
            · simp only [if_pos h5] at h
              match rest with
              | [] => simp at h
              | [c1] => simp at h
              | [c1, c2] => simp at h
              | c1 :: c2 :: c3 :: rest3 =>
                simp only [] at h
                by_cases hcond : (isCont c1 && isCont c2 && isCont c3 &&
                    decide (0x10000 ≤ (b - 0xF0) * 0x40000 + (c1 - 0x80) * 4096 +
                      (c2 - 0x80) * 64 + (c3 - 0x80)) &&
                    decide ((b - 0xF0) * 0x40000 + (c1 - 0x80) * 4096 +
                      (c2 - 0x80) * 64 + (c3 - 0x80) < 0x110000)) = true
                · rw [if_pos hcond] at h
                  simp only [Option.some.injEq, Prod.mk.injEq] at h
                  obtain ⟨rfl, rfl⟩ := h
                  have hfacts : (0x80 ≤ c1 ∧ c1 < 0xC0) ∧ (0x80 ≤ c2 ∧ c2 < 0xC0) ∧
                      (0x80 ≤ c3 ∧ c3 < 0xC0) ∧
                      0x10000 ≤ (b - 0xF0) * 0x40000 + (c1 - 0x80) * 4096 +
                        (c2 - 0x80) * 64 + (c3 - 0x80) := by
                    simp only [isCont, Bool.and_eq_true, decide_eq_true_eq] at hcond
                    tauto
                  obtain ⟨⟨hc1a, hc1b⟩, ⟨hc2a, hc2b⟩, ⟨hc3a, hc3b⟩, hcp⟩ := hfacts
                  have e1 : ¬((b - 0xF0) * 0x40000 + (c1 - 0x80) * 4096 +
                      (c2 - 0x80) * 64 + (c3 - 0x80) < 0x80) := by omega
                  have e2 : ¬((b - 0xF0) * 0x40000 + (c1 - 0x80) * 4096 +
                      (c2 - 0x80) * 64 + (c3 - 0x80) < 0x800) := by omega
                  have e3 : ¬((b - 0xF0) * 0x40000 + (c1 - 0x80) * 4096 +
                      (c2 - 0x80) * 64 + (c3 - 0x80) < 0x10000) := by omega
                  simp only [utf8EncodeChar, if_neg e1, if_neg e2, if_neg e3,
                    List.cons_append, List.nil_append, List.cons.injEq, List.length_cons]
                  exact ⟨⟨by omega, by omega, by omega, by omega, trivial⟩, by omega⟩
                · rw [if_neg (by simpa using hcond)] at h
                  exact absurd h (by simp)
            · simp [if_neg h5] at h

theorem utf8Encode_decodeF :
    ∀ (fuel : Nat) (bs : Bytes) (u : Uni), utf8DecodeF fuel bs = some u →
      utf8Encode u = bs := by
  intro fuel
  induction fuel with
  | zero =>
    intro bs u h
    match bs with
    | [] =>
      simp only [utf8DecodeF, Option.some.injEq] at h
      simp [← h, utf8Encode]
    | _ :: _ => simp [utf8DecodeF] at h
  | succ fuel ih =>
    intro bs u h
    match bs with
    | [] =>
      simp only [utf8DecodeF, Option.some.injEq] at h
      simp [← h, utf8Encode]
    | b :: rest =>
      simp only [utf8DecodeF] at h
      cases hone : utf8DecodeOne (b :: rest) with
      | none => rw [hone] at h; simp at h
      | some pr =>
        obtain ⟨cp, rest2⟩ := pr
        rw [hone] at h
        change (utf8DecodeF fuel rest2).map (cp :: ·) = some u at h
        simp only [Option.map_eq_some'] at h
        obtain ⟨u2, hu2, rfl⟩ := h
        have hs := utf8DecodeOne_sound _ _ _ hone
        have he := ih rest2 u2 hu2
        simp only [utf8Encode, List.flatMap_cons] at *
        rw [he, hs.1]

theorem utf8Encode_decode {bs : Bytes} {u : Uni} (h : utf8Decode bs = some u) :
    utf8Encode u = bs :=
  utf8Encode_decodeF bs.length bs u h

theorem breakLine_cons (c : Nat) (rest : Uni) :
    breakLine (c :: rest) =
      if c = 13 then
        match rest with
        | [] => ([13], [])
        | c2 :: rest2 => if c2 = 10 then ([13, 10], rest2) else ([13], c2 :: rest2)
      else if isLineBreak c then ([c], rest)
      else ((c :: (breakLine rest).1, (breakLine rest).2)) := rfl

theorem breakLine_append : ∀ u : Uni, (breakLine u).1 ++ (breakLine u).2 = u
  | [] => rfl
  | c :: rest => by
    rw [breakLine_cons]
    by_cases h13 : c = 13
    · subst h13
      rw [if_pos rfl]
      cases rest with
      | nil => simp
      | cons c2 rest2 =>
        by_cases h10 : c2 = 10
        · subst h10; simp
        · simp [h10]
    · rw [if_neg h13]
      by_cases hlb : isLineBreak c
      · simp [hlb]
      · simp [hlb, breakLine_append rest]

theorem breakLine_snd_length : ∀ u : Uni, u ≠ [] → (breakLine u).2.length < u.length
  | [], h => absurd rfl h
  | c :: rest, _ => by
    rw [breakLine_cons]
    by_cases h13 : c = 13
    · subst h13
      rw [if_pos rfl]
      cases rest with
      | nil => simp
      | cons c2 rest2 =>
        by_cases h10 : c2 = 10
        · subst h10
          simp only [List.length_cons]
          simp
          omega
        · simp only [if_neg h10, List.length_cons]
          omega
    · rw [if_neg h13]
      by_cases hlb : isLineBreak c
      · simp [hlb]
      · rw [if_neg hlb]
        cases rest with
        | nil => simp [breakLine]
        | cons c2 rest2 =>
          have := breakLine_snd_length (c2 :: rest2) (by simp)
          simp only [List.length_cons] at this ⊢
          omega

theorem joinLines_splitlinesF :
    ∀ (fuel : Nat) (u : Uni), u.length < fuel → joinLines (splitlinesF fuel u) = u := by
  intro fuel
  induction fuel with
  | zero => intro u h; omega
  | succ fuel ih =>
    intro u h
    cases u with
    | nil => simp [splitlinesF, joinLines]
    | cons c rest =>
      have h2 := breakLine_snd_length (c :: rest) (by simp)
      have h3 := ih (breakLine (c :: rest)).2 (by
        have hcons : (c :: rest).length = rest.length + 1 := rfl
        omega)
      simp only [splitlinesF, joinLines, List.flatten_cons]
      simp only [joinLines] at h3
      rw [h3]
      exact breakLine_append _

theorem joinLines_splitlines (u : Uni) : joinLines (splitlines u) = u :=
  joinLines_splitlinesF _ u (Nat.lt_succ_self _)

/-!
SequenceMatcher soundness and the text-patch round trip.
-/

theorem matchLen_take_eq [DecidableEq α] :
    ∀ xs ys : List α, xs.take (matchLen xs ys) = ys.take (matchLen xs ys)
  | [], ys => by simp [matchLen]
  | _ :: _, [] => by simp [matchLen]
  | x :: xs, y :: ys => by
    by_cases h : x = y
    · subst h
      have hml : matchLen (x :: xs) (x :: ys) = matchLen xs ys + 1 := by
        simp [matchLen]
      rw [hml, List.take_succ_cons, List.take_succ_cons, matchLen_take_eq xs ys]
    · simp [matchLen, h]

theorem take_eq_of_le_matchLen [DecidableEq α] {xs ys : List α} {k : Nat}
    (h : k ≤ matchLen xs ys) : xs.take k = ys.take k := by
  have heq := matchLen_take_eq xs ys
  calc xs.take k = (xs.take (matchLen xs ys)).take k := by
        rw [List.take_take, Nat.min_eq_left h]
  _ = (ys.take (matchLen xs ys)).take k := by rw [heq]
  _ = ys.take k := by rw [List.take_take, Nat.min_eq_left h]

theorem foldl_inv {γ δ : Type} (P : δ → Prop) :
    ∀ (l : List γ) (f : δ → γ → δ) (init : δ),
      (∀ d c, c ∈ l → P d → P (f d c)) → P init → P (l.foldl f init)
  | [], _, _, _, hinit => hinit
  | c :: l, f, init, hstep, hinit =>
    foldl_inv P l f (f init c) (fun d c' hc' => hstep d c' (List.mem_cons_of_mem _ hc'))
      (hstep init c (List.mem_cons_self _ _) hinit)

theorem flmCands_mem {alo ahi blo bhi : Nat} {ij : Nat × Nat}
    (h : ij ∈ flmCands alo ahi blo bhi) :
    alo ≤ ij.1 ∧ ij.1 < ahi ∧ blo ≤ ij.2 ∧ ij.2 < bhi := by
  simp only [flmCands, List.mem_flatMap, List.mem_map, List.mem_range'] at h
  obtain ⟨i, ⟨di, hdi, hieq⟩, j, ⟨dj, hdj, hjeq⟩, hij⟩ := h
  subst hij
  constructor
  · omega
  constructor
  · omega
  constructor
  · omega
  · omega

theorem flm_sound [DecidableEq α] (a b : List α) (alo ahi blo bhi : Nat) :
    MOk a b alo ahi blo bhi (findLongestMatch a b alo ahi blo bhi) := by
  unfold findLongestMatch
  refine foldl_inv (MOk a b alo ahi blo bhi) _ _ _ ?_ (Or.inl rfl)
  intro m ij hij hm
  dsimp only
  by_cases hlt : m.size < windowMLen a b ahi bhi ij.1 ij.2
  · rw [if_pos hlt]
    obtain ⟨h1, h2, h3, h4⟩ := flmCands_mem hij
    right
    refine ⟨h1, ?_, h3, ?_, ?_⟩
    · have := Nat.min_le_right (matchLen (a.drop ij.1) (b.drop ij.2))
        (min (ahi - ij.1) (bhi - ij.2))
      have := Nat.min_le_left (ahi - ij.1) (bhi - ij.2)
      simp only [windowMLen]
      omega
    · have := Nat.min_le_right (matchLen (a.drop ij.1) (b.drop ij.2))
        (min (ahi - ij.1) (bhi - ij.2))
      have := Nat.min_le_right (ahi - ij.1) (bhi - ij.2)
      simp only [windowMLen]
      omega
    · exact take_eq_of_le_matchLen (by simp only [windowMLen]; omega)
  · rw [if_neg hlt]
    exact hm

theorem chained_weaken [DecidableEq α] (a b : List α) :
    ∀ (l : List MBlock) (alo blo alo' blo' ahi bhi : Nat),
      Chained a b alo blo l ahi bhi → alo' ≤ alo → blo' ≤ blo →
      Chained a b alo' blo' l ahi bhi
  | [], _, _, _, _, _, _, h, h1, h2 => ⟨Nat.le_trans h1 h.1, Nat.le_trans h2 h.2⟩
  | _ :: _, _, _, _, _, _, _, h, h1, h2 =>
    ⟨Nat.le_trans h1 h.1, Nat.le_trans h2 h.2.1, h.2.2.1, h.2.2.2⟩

theorem chained_append [DecidableEq α] (a b : List α) :
    ∀ (l₁ : List MBlock) (alo blo ma mb ahi bhi : Nat) (l₂ : List MBlock),
      Chained a b alo blo l₁ ma mb → Chained a b ma mb l₂ ahi bhi →
      Chained a b alo blo (l₁ ++ l₂) ahi bhi
  | [], _, _, _, _, _, _, l₂, h1, h2 => by
    simp only [List.nil_append]
    exact chained_weaken a b l₂ _ _ _ _ _ _ h2 h1.1 h1.2
  | m :: rest, _, _, _, _, _, _, l₂, h1, h2 =>
    ⟨h1.1, h1.2.1, h1.2.2.1, chained_append a b rest _ _ _ _ _ _ l₂ h1.2.2.2 h2⟩

theorem mbr_chained [DecidableEq α] (a b : List α) :
    ∀ (fuel alo ahi blo bhi : Nat), alo ≤ ahi → blo ≤ bhi →
      Chained a b alo blo (matchingBlocksRec a b fuel alo ahi blo bhi) ahi bhi := by
  intro fuel
  induction fuel with
  | zero =>
    intro alo ahi blo bhi h1 h2
    exact ⟨h1, h2⟩
  | succ fuel ih =>
    intro alo ahi blo bhi h1 h2
    simp only [matchingBlocksRec]
    have hm := flm_sound a b alo ahi blo bhi
    set m := findLongestMatch a b alo ahi blo bhi with hmdef
    by_cases hz : m.size = 0
    · rw [if_pos hz]; exact ⟨h1, h2⟩
    · rw [if_neg hz]
      rcases hm with hz' | ⟨hi1, hi2, hj1, hj2, heq⟩
      · exact absurd hz' hz
      refine chained_append a b _ alo blo m.i m.j ahi bhi _ ?_ ?_
      · by_cases hg : alo < m.i ∧ blo < m.j
        · rw [if_pos hg]
          exact ih alo _ blo _ (Nat.le_of_lt hg.1) (Nat.le_of_lt hg.2)
        · rw [if_neg hg]
          exact ⟨hi1, hj1⟩
      · refine ⟨Nat.le_refl _, Nat.le_refl _, heq, ?_⟩
        by_cases hg : m.i + m.size < ahi ∧ m.j + m.size < bhi
        · rw [if_pos hg]
          exact ih _ _ _ _ (Nat.le_of_lt hg.1) (Nat.le_of_lt hg.2)
        · rw [if_neg hg]
          exact ⟨hi2, hj2⟩

theorem mergeAdjacent_chained [DecidableEq α] (a b : List α) :
    ∀ (blocks : List MBlock) (cur : MBlock) (alo blo ahi bhi : Nat),
      Chained a b alo blo (cur :: blocks) ahi bhi →
      Chained a b alo blo (mergeAdjacent cur blocks) ahi bhi
  | [], cur, alo, blo, ahi, bhi, h => by
    simp only [mergeAdjacent]
    by_cases hz : cur.size ≠ 0
    · rw [if_pos hz]; exact h
    · rw [if_neg hz]
      have hrest : Chained a b (cur.i + cur.size) (cur.j + cur.size) [] ahi bhi := h.2.2.2
      exact ⟨Nat.le_trans h.1 (Nat.le_trans (Nat.le_add_right _ _) hrest.1),
        Nat.le_trans h.2.1 (Nat.le_trans (Nat.le_add_right _ _) hrest.2)⟩
  | mb :: rest, cur, alo, blo, ahi, bhi, h => by
    simp only [mergeAdjacent]
    obtain ⟨hc1, hc2, hceq, hrest⟩ := h
    obtain ⟨ha1, ha2, haeq, hrest2⟩ := hrest
    by_cases hadj : cur.i + cur.size = mb.i ∧ cur.j + cur.size = mb.j
    · obtain ⟨hadj1, hadj2⟩ := hadj
      rw [if_pos ⟨hadj1, hadj2⟩]
      apply mergeAdjacent_chained a b rest ⟨cur.i, cur.j, cur.size + mb.size⟩ alo blo ahi bhi
      refine ⟨hc1, hc2, ?_, ?_⟩
      · show (a.drop cur.i).take (cur.size + mb.size) =
          (b.drop cur.j).take (cur.size + mb.size)
        rw [List.take_add, List.take_add, List.drop_drop, List.drop_drop,
          hadj1, hadj2, hceq, haeq]
      · show Chained a b (cur.i + (cur.size + mb.size)) (cur.j + (cur.size + mb.size))
          rest ahi bhi
        have e1 : cur.i + (cur.size + mb.size) = mb.i + mb.size := by omega
        have e2 : cur.j + (cur.size + mb.size) = mb.j + mb.size := by omega
        rw [e1, e2]
        exact hrest2
    · rw [if_neg hadj]
      have htail := mergeAdjacent_chained a b rest mb (cur.i + cur.size)
        (cur.j + cur.size) ahi bhi ⟨ha1, ha2, haeq, hrest2⟩
      by_cases hz : cur.size ≠ 0
      · rw [if_pos hz, List.singleton_append]
        exact ⟨hc1, hc2, hceq, htail⟩
      · rw [if_neg hz, List.nil_append]
        exact chained_weaken a b _ _ _ _ _ _ _ htail
          (Nat.le_trans hc1 (Nat.le_add_right _ _))
          (Nat.le_trans hc2 (Nat.le_add_right _ _))

theorem chained_gchain [DecidableEq α] (a b : List α) :
    ∀ (l : List MBlock) (i j : Nat), Chained a b i j l a.length b.length →
      GChain a b i j (l ++ [⟨a.length, b.length, 0⟩])
  | [], i, j, h => by
    simp only [List.nil_append]
    exact ⟨h.1, h.2, by simp, Nat.le_add_right _ _⟩
  | m :: rest, i, j, h =>
    ⟨h.1, h.2.1, h.2.2.1, chained_gchain a b rest _ _ h.2.2.2⟩

theorem pySlice_append_drop (l : List α) (x y : Nat) (h : x ≤ y) :
    pySlice l x y ++ l.drop y = l.drop x := by
  have hd : l.drop y = (l.drop x).drop (y - x) := by
    rw [List.drop_drop]
    congr 1
    omega
  rw [pySlice, hd, List.take_append_drop]

theorem applyTextPatch_append (base : List Uni) (p₂ : List PatchEntry)
    (r₂ : List Uni) (h₂ : applyTextPatch base p₂ = some r₂) :
    ∀ (p₁ : List PatchEntry) (r₁ : List Uni),
      applyTextPatch base p₁ = some r₁ →
      applyTextPatch base (p₁ ++ p₂) = some (r₁ ++ r₂)
  | [], r₁, h₁ => by
    simp only [applyTextPatch, Option.some.injEq] at h₁
    simpa [← h₁] using h₂
  | e :: p₁, r₁, h₁ => by
    cases he : entryOut base e with
    | none => simp [applyTextPatch, he] at h₁
    | some v =>
      cases hp : applyTextPatch base p₁ with
      | none => simp [applyTextPatch, he, hp] at h₁
      | some vs =>
        have hrec := applyTextPatch_append base p₂ r₂ h₂ p₁ vs hp
        simp only [applyTextPatch, he, hp, Option.some.injEq] at h₁
        simp only [List.cons_append, applyTextPatch, he]
        have hrec' : applyTextPatch base (p₁.append p₂) = some (vs ++ r₂) := hrec
        rw [hrec']
        show some (v ++ (vs ++ r₂)) = some (r₁ ++ r₂)
        rw [← h₁, List.append_assoc]

theorem mkPatchEntries_append (newLines : List Uni) (l₁ l₂ : List Opcode) :
    mkPatchEntries newLines (l₁ ++ l₂) =
      mkPatchEntries newLines l₁ ++ mkPatchEntries newLines l₂ := by
  simp [mkPatchEntries]

theorem applyGen (aL bL : List Uni) :
    ∀ (blocks : List MBlock) (i j : Nat), GChain aL bL i j blocks →
      applyTextPatch aL (mkPatchEntries bL (opcodesLoop i j blocks)) =
        some (bL.drop j)
  | [], i, j, h => by
    simp only [opcodesLoop, mkPatchEntries, List.map_nil, applyTextPatch]
    rw [List.drop_eq_nil_iff.mpr h]
  | m :: rest, i, j, h => by
    obtain ⟨hi, hj, heq, hrest⟩ := h
    have htail := applyGen aL bL rest (m.i + m.size) (m.j + m.size) hrest
    have hgap : applyTextPatch aL (mkPatchEntries bL
        (if i < m.i ∧ j < m.j then [⟨.replace, i, m.i, j, m.j⟩]
          else if i < m.i then [⟨.delete, i, m.i, j, m.j⟩]
          else if j < m.j then [⟨.insert, i, m.i, j, m.j⟩]
          else [])) = some (pySlice bL j m.j) := by
      by_cases h1 : i < m.i ∧ j < m.j
      · rw [if_pos h1]
        simp [mkPatchEntries, applyTextPatch, entryOut]
      · rw [if_neg h1]
        by_cases h2 : i < m.i
        · rw [if_pos h2]
          have hjm : j = m.j := by omega
          simp [mkPatchEntries, applyTextPatch, entryOut, hjm, pySlice]
        · rw [if_neg h2]
          by_cases h3 : j < m.j
          · rw [if_pos h3]
            simp [mkPatchEntries, applyTextPatch, entryOut]
          · rw [if_neg h3]
            have hjm : j = m.j := by omega
            simp [mkPatchEntries, applyTextPatch, hjm, pySlice]
    have heqp : applyTextPatch aL (mkPatchEntries bL
        (if m.size ≠ 0 then [⟨.equal, m.i, m.i + m.size, m.j, m.j + m.size⟩] else []))
        = some (pySlice bL m.j (m.j + m.size)) := by
      by_cases hz : m.size ≠ 0
      · rw [if_pos hz]
        have hslice : pySlice aL m.i (m.i + m.size) = pySlice bL m.j (m.j + m.size) := by
          simp only [pySlice, Nat.add_sub_cancel_left]
          exact heq
        simp [mkPatchEntries, applyTextPatch, entryOut, hslice]
      · rw [if_neg hz]
        have hz' : m.size = 0 := by omega
        simp [mkPatchEntries, applyTextPatch, hz', pySlice]
    have hcomb2 := applyTextPatch_append aL _ _ htail _ _ heqp
    have hcomb := applyTextPatch_append aL _ _ hcomb2 _ _ hgap
    rw [pySlice_append_drop bL m.j (m.j + m.size) (Nat.le_add_right _ _),
      pySlice_append_drop bL j m.j hj] at hcomb
    simp only [opcodesLoop, mkPatchEntries_append]
    rw [List.append_assoc]
    exact hcomb

theorem generateTextPatch_roundtrip (oldL newL : List Uni) :
    applyTextPatch oldL (generateTextPatch oldL newL) = some newL := by
  have h1 := mbr_chained oldL newL (oldL.length + 1) 0 oldL.length 0 newL.length
    (Nat.zero_le _) (Nat.zero_le _)
  have h2 : Chained oldL newL 0 0
      (⟨0, 0, 0⟩ :: matchingBlocksRec oldL newL (oldL.length + 1) 0 oldL.length 0
        newL.length) oldL.length newL.length :=
    ⟨Nat.le_refl _, Nat.le_refl _, by simp, h1⟩
  have h3 := mergeAdjacent_chained oldL newL _ ⟨0, 0, 0⟩ 0 0 _ _ h2
  have h4 := chained_gchain oldL newL _ 0 0 h3
  have h5 := applyGen oldL newL _ 0 0 h4
  simpa [generateTextPatch, get_opcodes, getMatchingBlocks] using h5

/-!
Binary codec round trip and the C1 claim.
-/

theorem bestBinMatch_sound (old rem : Bytes) :
    (bestBinMatch old rem).2 = 0 ∨
      (bestBinMatch old rem).2 = matchLen (old.drop (bestBinMatch old rem).1) rem := by
  unfold bestBinMatch
  refine foldl_inv (fun (p : Nat × Nat) => p.2 = 0 ∨ p.2 = matchLen (old.drop p.1) rem) _ _ _ ?_
    (Or.inl rfl)
  intro p i hi hp
  dsimp only
  by_cases hlt : p.2 < matchLen (old.drop i) rem
  · rw [if_pos hlt]
    right
    rfl
  · rw [if_neg hlt]
    exact hp

theorem genBinOps_roundtrip (old : Bytes) :
    ∀ (fuel : Nat) (rem : Bytes), rem.length < fuel →
      applyBinOps old (genBinOps old fuel rem) = rem := by
  intro fuel
  induction fuel with
  | zero => intro rem h; omega
  | succ fuel ih =>
    intro rem h
    match rem with
    | [] => simp [genBinOps, applyBinOps]
    | b :: rest =>
      simp only [genBinOps]
      by_cases hz : (bestBinMatch old (b :: rest)).2 = 0
      · rw [if_pos hz]
        simp only [applyBinOps, List.flatMap_cons]
        have hrec : applyBinOps old (genBinOps old fuel rest) = rest :=
          ih rest (by simp only [List.length_cons] at h; omega)
        simp only [applyBinOps] at hrec
        rw [hrec]
        exact List.singleton_append
      · rw [if_neg hz]
        rcases bestBinMatch_sound old (b :: rest) with h0 | hml
        · exact absurd h0 hz
        · have hk : 1 ≤ (bestBinMatch old (b :: rest)).2 := Nat.one_le_iff_ne_zero.mpr hz
          simp only [applyBinOps, List.flatMap_cons]
          have htake : (old.drop (bestBinMatch old (b :: rest)).1).take
              (bestBinMatch old (b :: rest)).2 =
              (b :: rest).take (bestBinMatch old (b :: rest)).2 := by
            rw [hml]
            exact matchLen_take_eq _ _
          have hlen : ((b :: rest).drop (bestBinMatch old (b :: rest)).2).length < fuel := by
            simp only [List.length_drop, List.length_cons] at *
            omega
          have hrec := ih _ hlen
          simp only [applyBinOps] at hrec
          rw [htake, hrec]
          exact List.take_append_drop _ _

theorem apply_generate_binary_diff (oldB newB : Bytes) :
    apply_binary_diff oldB (generate_binary_diff oldB newB) = some newB := by
  have hdec := decListWith_enc decBinOp_encBinOp (genBinOps oldB (newB.length + 1) newB) []
  simp only [List.append_nil] at hdec
  simp only [apply_binary_diff, generate_binary_diff, hdec]
  rw [genBinOps_roundtrip oldB (newB.length + 1) newB (Nat.lt_succ_self _)]

theorem apply_generate_text_diff (oldB newB : Bytes)
    (ho : (utf8Decode oldB).isSome = true) (hn : (utf8Decode newB).isSome = true) :
    ∃ d, generate_text_diff oldB newB = some d ∧ apply_text_diff oldB d = some newB := by
  obtain ⟨uo, huo⟩ := Option.isSome_iff_exists.mp ho
  obtain ⟨un, hun⟩ := Option.isSome_iff_exists.mp hn
  refine ⟨encodePatch (generateTextPatch (splitlines uo) (splitlines un)), ?_, ?_⟩
  · simp [generate_text_diff, huo, hun]
  · simp only [apply_text_diff, huo, decodePatch_encodePatch,
      generateTextPatch_roundtrip]
    rw [joinLines_splitlines, utf8Encode_decode hun]

/-- C1.  Text-delta round trip: for every pair of UTF-8-decodable byte
buffers `(old, new)`, applying the generated text diff to `old` yields
exactly `new` — `apply_text_diff(old, generate_text_diff(old, new)) ==
new` — and likewise the binary codec round-trips on arbitrary byte
buffers. -/
theorem text_and_binary_round_trip :
    (∀ oldB newB : Bytes, (utf8Decode oldB).isSome = true →
        (utf8Decode newB).isSome = true →
        ∃ d, generate_text_diff oldB newB = some d ∧
          apply_text_diff oldB d = some newB) ∧
    (∀ oldB newB : Bytes,
        apply_binary_diff oldB (generate_binary_diff oldB newB) = some newB) :=
  ⟨apply_generate_text_diff, apply_generate_binary_diff⟩

/-- Witness for C1 at a concrete input: `old = "a\n"`, `new = "b\nc"` for
the text codec and `[1,2,3] → [2,3,9]` for the binary codec. -/
theorem text_and_binary_round_trip_witness :
    ((utf8Decode [97, 10]).isSome = true ∧ (utf8Decode [98, 10, 99]).isSome = true ∧
      (∃ d, generate_text_diff [97, 10] [98, 10, 99] = some d ∧
        apply_text_diff [97, 10] d = some [98, 10, 99])) ∧
    apply_binary_diff [1, 2, 3] (generate_binary_diff [1, 2, 3] [2, 3, 9]) =
      some [2, 3, 9] :=
  ⟨⟨by decide, by decide,
    text_and_binary_round_trip.1 [97, 10] [98, 10, 99] (by decide) (by decide)⟩,
   text_and_binary_round_trip.2 [1, 2, 3] [2, 3, 9]⟩


/-!
Object-storage idempotence (C3).
-/

/-- C3.  Storage idempotence and deterministic addressing: `save_object`
returns the content hash of the data as oid; saving the same bytes twice
returns the same oid and leaves the objects directory in exactly the same
state as one save (no duplicate on-disk data); and loading the returned
oid gives back exactly the saved bytes.  The external collaborators are
universally quantified: any deterministic hash and any lossless
compressor/decompressor pair. -/
theorem save_object_idempotent_lossless :
    ∀ (hash : Bytes → String) (comp decomp : Bytes → Bytes),
      (∀ bs, decomp (comp bs) = bs) →
      ∀ (store : FileStore) (x : Bytes) (kind : String),
        (save_object hash comp store x kind).2 = hash x ∧
        (save_object hash comp (save_object hash comp store x kind).1 x kind).2 =
          (save_object hash comp store x kind).2 ∧
        (save_object hash comp (save_object hash comp store x kind).1 x kind).1 =
          (save_object hash comp store x kind).1 ∧
        load_object decomp (save_object hash comp store x kind).1
          (save_object hash comp store x kind).2 kind = some x := by
  intro hash comp decomp hcd store x kind
  refine ⟨rfl, rfl, ?_, ?_⟩
  · simp only [save_object]
    exact insertReplace_idem store (hash x ++ "." ++ kind) (comp x)
  · simp [save_object, load_object, lookupA_insertReplace, hcd]

/-- Witness for C3: the identity compressor pair, a constant hash, the
empty store and the buffer `[1, 2]`. -/
theorem save_object_idempotent_lossless_witness :
    (∀ bs : Bytes, (fun (b : Bytes) => b) ((fun (b : Bytes) => b) bs) = bs) ∧
    ((save_object (fun _ => "h") (fun (b : Bytes) => b) [] [1, 2] "base").2 =
        (fun _ => "h") [1, 2] ∧
      (save_object (fun _ => "h") (fun (b : Bytes) => b)
          (save_object (fun _ => "h") (fun (b : Bytes) => b) [] [1, 2] "base").1
          [1, 2] "base").2 =
        (save_object (fun _ => "h") (fun (b : Bytes) => b) [] [1, 2] "base").2 ∧
      (save_object (fun _ => "h") (fun (b : Bytes) => b)
          (save_object (fun _ => "h") (fun (b : Bytes) => b) [] [1, 2] "base").1
          [1, 2] "base").1 =
        (save_object (fun _ => "h") (fun (b : Bytes) => b) [] [1, 2] "base").1 ∧
      load_object (fun (b : Bytes) => b)
          (save_object (fun _ => "h") (fun (b : Bytes) => b) [] [1, 2] "base").1
          (save_object (fun _ => "h") (fun (b : Bytes) => b) [] [1, 2] "base").2
          "base" = some [1, 2]) :=
  ⟨fun _ => rfl,
    save_object_idempotent_lossless (fun _ => "h") (fun b => b) (fun b => b)
      (fun _ => rfl) [] [1, 2] "base"⟩

/-!
Termination of the reconstruction walk (C10).
-/

theorem collectChainF_none_length (st : RepoState) (fp : Path) :
    ∀ (fuel : Nat) (oid? : Option Oid), collectChainF st fp fuel oid? = none →
      (chainOids st fuel oid?).length = fuel
  | 0, none, h => by simp [collectChainF] at h
  | 0, some _, _ => by simp [chainOids]
  | fuel + 1, none, h => by simp [collectChainF] at h
  | fuel + 1, some oid, h => by
    simp only [collectChainF] at h
    cases hg : getFullCommit st oid with
    | error e => rw [hg] at h; simp at h
    | ok c =>
      rw [hg] at h
      simp only [Option.map_eq_none'] at h
      have hrec := collectChainF_none_length st fp fuel (firstParent c.parent) h
      simp [chainOids, hg, hrec]

theorem chainOids_subset_keys (st : RepoState) :
    ∀ (fuel : Nat) (oid? : Option Oid) (x : Oid), x ∈ chainOids st fuel oid? →
      x ∈ keysA st.meta.commits
  | 0, none, x, h => by simp [chainOids] at h
  | 0, some _, x, h => by simp [chainOids] at h
  | fuel + 1, none, x, h => by simp [chainOids] at h
  | fuel + 1, some oid, x, h => by
    simp only [chainOids] at h
    cases hg : getFullCommit st oid with
    | error e => rw [hg] at h; simp at h
    | ok c =>
      rw [hg] at h
      simp only [List.mem_cons] at h
      rcases h with rfl | h
      · have hl : lookupA st.meta.commits x = some c := by
          unfold getFullCommit at hg
          cases hll : lookupA st.meta.commits x with
          | none => rw [hll] at hg; simp at hg
          | some c2 =>
            rw [hll] at hg
            simp only [Except.ok.injEq] at hg
            rw [hg]
        exact lookupA_mem_keys hl
      · exact chainOids_subset_keys st fuel _ x h

/-- C10.  Termination of the reconstruction walk: the walk keeps no
visited set, so its termination rests on the first-parent chain being
finite and acyclic.  Formally: if the commit ids visited within
`|commits| + 1` steps are pairwise distinct (no cycle among stored parent
references), `reconstruct_file_bytes` completes within that many steps —
the fueled embedding of the unguarded `while` loop does not run out. -/
theorem reconstruct_walk_terminates (st : RepoState) (filepath : Path) (c : Oid)
    (h : (chainOids st (st.meta.commits.length + 1) (some c)).Nodup) :
    (reconstruct_file_bytes st (st.meta.commits.length + 1) c filepath).isSome
      = true := by
  cases hc : collectChainF st filepath (st.meta.commits.length + 1) (some c) with
  | some r => rw [reconstruct_file_bytes, hc]; rfl
  | none =>
    exfalso
    have hlen := collectChainF_none_length st filepath _ _ hc
    have hsub : chainOids st (st.meta.commits.length + 1) (some c) ⊆
        keysA st.meta.commits := fun x hx => chainOids_subset_keys st _ _ x hx
    have hle := (List.subperm_of_subset h hsub).length_le
    rw [hlen] at hle
    simp only [keysA, List.length_map] at hle
    omega

/-- Witness for C10: a one-commit repository; the single-element visited
chain is duplicate-free and reconstruction succeeds within two steps. -/
theorem reconstruct_walk_terminates_witness :
    (chainOids c10Repo 2 (some "c1")).Nodup ∧
    (reconstruct_file_bytes c10Repo 2 "c1" ["p"]).isSome = true :=
  ⟨by decide, reconstruct_walk_terminates c10Repo ["p"] "c1" (by decide)⟩

/-!
The commit builder store decisions (C4, C5) and the loop-placement
evaluations (C8, C9), the reconstruction deletion evaluation (C2), the
three-way merge evaluation (C6) and the cli merge-state machinery (C7).
-/

/-- C2 (evaluation at the failing input).  For the history `Base [120] →
Deleted → Base [121]` on path `p`, the commit `c3` itself records a
loadable `Base` entry, yet `reconstruct_file_bytes` at `c3` reports the
file absent: the replay loop returns at the `Deleted` entry without
resuming from the later `Base`. -/
theorem reconstruct_deleted_ignores_later_base :
    reconstruct_file_bytes c2Repo 5 "c3" ["p"] = some (.ok none) ∧
    lookupA (getCommitTree c2Repo (some "c3")) ["p"] = some (.base "o3") ∧
    loadObj c2Repo "o3" "base" = some [121] :=
  ⟨rfl, rfl, rfl⟩

/-- C4 (evaluation at the failing input).  For a text file whose current
bytes `"a\n"` equal the reconstructed parent value, the commit text
branch does not inherit the parent entry: the generated patch is the
non-empty `[["equal", 0, 1, 0, 1, null]]`, so `if not
json.loads(diff_bytes)` fails and a fresh diff object is stored. -/
theorem unchanged_text_stores_new_diff :
    textStoreDecision [97, 10] [97, 10] =
      some (.storeDiff (encodePatch [⟨⟨.equal, 0, 1, 0, 1⟩, none⟩])) := by
  decide

/-- C5.  Binary store-or-base guarantee: the binary branch of `commit`
stores a `Diff` entry exactly when the patch is strictly smaller than the
new content, and a full `Base` otherwise — a stored `Diff` is never at
least as large as the new content. -/
theorem binary_store_or_base (binDiff newContent : Bytes) :
    (∀ d, binaryStoreDecision binDiff newContent = .storeDiff d →
      d.length < newContent.length) ∧
    (newContent.length ≤ binDiff.length →
      binaryStoreDecision binDiff newContent = .storeBase newContent) ∧
    (binDiff.length < newContent.length →
      binaryStoreDecision binDiff newContent = .storeDiff binDiff) := by
  refine ⟨?_, ?_, ?_⟩
  · intro d hd
    by_cases hlt : binDiff.length < newContent.length
    · simp only [binaryStoreDecision, if_pos hlt, BinAction.storeDiff.injEq] at hd
      subst hd
      exact hlt
    · simp [binaryStoreDecision, if_neg hlt] at hd
  · intro hge
    simp [binaryStoreDecision, Nat.not_lt.mpr hge]
  · intro hlt
    simp [binaryStoreDecision, hlt]

/-- Witness for C5: a two-byte patch against one-byte content falls back
to `Base`; a one-byte patch against two-byte content is stored as `Diff`. -/
theorem binary_store_or_base_witness :
    binaryStoreDecision [0, 0] [1] = .storeBase [1] ∧
    binaryStoreDecision [0] [9, 9] = .storeDiff [0] ∧
    ([0] : Bytes).length < ([9, 9] : Bytes).length :=
  ⟨(binary_store_or_base [0, 0] [1]).2.1 (by decide),
   (binary_store_or_base [0] [9, 9]).2.2 (by decide),
   (binary_store_or_base [0] [9, 9]).1 [0] (by decide)⟩

/-- C6 (evaluation at the failing input).  Merging base `"a\nb\n"`,
ours `"a\nx\nb\n"` (a pure insertion) and theirs equal to base:
`find_covering` can never cover a positive-length segment with an
insertion range `(p, p)`, so the inserted line is silently dropped — the
merge returns the base text with no conflict instead of taking the single
touching side's insertion. -/
theorem three_way_merge_drops_insertion :
    three_way_merge_text [uni "a\n", uni "b\n"]
      [uni "a\n", uni "x\n", uni "b\n"] [uni "a\n", uni "b\n"] =
      (uni "a\nb\n", false) := by
  decide

/-- C7 (cli merge-state machinery, with the evaluation at the failing
input).  A delete-versus-modify conflict sets the conflict flag but
persists no `ConflictRecord`; on conflict the `MERGE_HEAD` marker is set
with the other parent and neither branches nor head nor written commits
change; while the marker exists `switch_branch` never switches and
`merge_branch` never proceeds past its guards; and a finalizing `commit`
takes `[head, other_head]` as parents and clears the marker. -/
theorem merge_conflict_suspension :
    Cli.mergeFile "master" "feature" (some [97]) none (some [98]) =
      ⟨true, false, .keep, none⟩ ∧
    (∀ (st : Cli.CliSt) (other : Oid),
      (Cli.mergeOnConflict st other).mergeHead = some other ∧
      (Cli.mergeOnConflict st other).branches = st.branches ∧
      (Cli.mergeOnConflict st other).head = st.head ∧
      (Cli.mergeOnConflict st other).commitsWritten = st.commitsWritten) ∧
    (∀ (st : Cli.CliSt) (name : String) (x : Oid),
      (Cli.switch_branch { st with mergeHead := some x } name).1 =
        { st with mergeHead := some x } ∧
      (Cli.switch_branch { st with mergeHead := some x } name).2 ≠ .switched) ∧
    (∀ (st : Cli.CliSt) (other : String) (x : Oid),
      Cli.mergeEarly { st with mergeHead := some x } other ≠ .proceeds) ∧
    (∀ (st : Cli.CliSt) (other : Oid),
      Cli.commitParents { st with mergeHead := some other } none =
        ([st.head, some other], { st with mergeHead := none })) := by
  refine ⟨by decide, fun st other => ⟨rfl, rfl, rfl, rfl⟩, ?_, ?_, fun st other => rfl⟩
  · intro st name x
    cases hl : lookupA st.branches name with
    | none => simp [Cli.switch_branch, hl]
    | some v => simp [Cli.switch_branch, hl]
  · intro st other x
    simp only [Cli.mergeEarly]
    cases hl : lookupA st.branches other with
    | none => simp
    | some otherHead =>
      by_cases he : (lookupA st.branches st.current_branch).getD none = otherHead
      · simp [he]
      · simp [he]

/-- C8 (evaluation at the failing input).  A commit whose only change is
an on-disk deletion: the per-file loop records the `deleted` entry and
`continue`s, so the commit-write block — which sits inside the loop body —
is never reached; Python falls off the loop returning `None`, and the
repository state (metadata, objects, index) is completely unchanged: no
commit object is written, branch and head do not move, the index is not
cleared. -/
theorem commit_deletion_only_writes_nothing :
    ∀ (hashB : Bytes → Oid) (hashC : CommitObj → Oid),
      commit hashB hashC 5 c8Repo "msg" = some (.noneReturn, c8Repo) := by
  intro hashB hashC
  rfl

/-- C9 (evaluation at the failing input).  Adding a directory holding two
files stages only the first file walked: the `return` inside the staging
loop exits after one iteration. -/
theorem add_directory_stages_only_first :
    ∀ (hashB : Bytes → Oid),
      (add hashB c9Repo ["d"]).1.indexData =
        [(["d", "f1"], ⟨some (hashB [97]), "text"⟩)] ∧
      (add hashB c9Repo ["d"]).2 = .staged ["d", "f1"] := by
  intro hashB
  exact ⟨rfl, rfl⟩


end Gible
